import Mathlib

/-!
# Verification of the in-memory trie node core and snapshot collaborators

This file gives a shallow embedding of:

* the in-memory Merkle-Patricia trie node representation
  (`core/store/src/trie/mem/node`), modelled from the specification and its
  reference test fixtures (`src/core/store/src/trie/mem/node/tests.rs`),
  since the implementation file itself is not part of the provided sources;
* the retry loops of `ShardTries::make_state_snapshot` and the reader
  `ShardTries::get_state_snapshot` (`src/core/store/src/trie/state_snapshot.rs`);
* the `ApplyStatePartsRequest` handler of `SyncJobsActor`
  (`src/chain/client/src/sync_jobs_actor.rs`).

Machine integers of the source are modelled as `Nat` (their values stay far
below the `u64` range in all statements proved here); bytes are `Nat`s below
256 produced by explicit `% 256`.
-/

/-- A byte string, each entry a value in `0..255`. -/
abbrev Bytes := List Nat

/-- Modelled from the spec: the 32-byte cryptographic content hash
(`near_primitives::hash::hash`, sha256 in the implementation).  The claims
under verification depend only on the hash being a fixed deterministic
function from byte strings to 32-byte strings, never on its cryptographic
structure, so it is modelled by an explicit deterministic mixing function
producing 32 bytes. -/
def hashBytes (l : Bytes) : Bytes :=
  (List.range 32).map fun i =>
    l.foldl (fun acc b => (acc * 31 + b + 7) % 256) ((i * 131 + l.length) % 256)

/-- `CryptoHash::default()`: the all-zero 32-byte hash. -/
def zeroHash : Bytes := List.replicate 32 0

/-- `near_primitives::state::ValueRef`: a value referenced by content hash
and byte length. -/
structure ValueRef where
  hash : Bytes
  length : Nat
deriving DecidableEq

/-- `near_primitives::state::FlatStateValue`: a value stored inline or
referenced by hash and length. -/
inductive FlatStateValue where
  | inlined (data : Bytes)
  | ref (valueRef : ValueRef)
deriving DecidableEq

/-- `FlatStateValue::to_value_ref`: conversion to a `ValueRef` for hashing
purposes; inlined data is hashed, a reference is returned as is. -/
def FlatStateValue.to_value_ref : FlatStateValue → ValueRef
  | .inlined data => ⟨hashBytes data, data.length⟩
  | .ref r => r

/-- The byte length of the value (`value_len`): length of the inlined data,
or the recorded length of the reference. -/
def FlatStateValue.value_len : FlatStateValue → Nat
  | .inlined data => data.length
  | .ref r => r.length

/-- `RawTrieNode`: the canonical (durable-storage compatible) node shape used
as the hashing target.  Branch children are the 16 nibble slots holding the
*hashes* of the children, not their raw bytes. -/
inductive RawTrieNode where
  | leaf (ext : Bytes) (value : ValueRef)
  | branchNoValue (children : List (Option Bytes))
  | branchWithValue (value : ValueRef) (children : List (Option Bytes))
  | extension (ext : Bytes) (childHash : Bytes)
deriving DecidableEq

/-- `RawTrieNodeWithSize`: canonical node paired with its protocol
memory-usage number; this is the exact borsh-serialization target whose hash
is the node hash. -/
structure RawTrieNodeWithSize where
  node : RawTrieNode
  memory_usage : Nat
deriving DecidableEq

/-- Little-endian `u16` borsh encoding. -/
def u16LE (n : Nat) : Bytes := [n % 256, n / 256 % 256]

/-- Little-endian `u32` borsh encoding. -/
def u32LE (n : Nat) : Bytes := [n % 256, n / 256 % 256, n / 2 ^ 16 % 256, n / 2 ^ 24 % 256]

/-- Little-endian `u64` borsh encoding. -/
def u64LE (n : Nat) : Bytes :=
  [n % 256, n / 256 % 256, n / 2 ^ 16 % 256, n / 2 ^ 24 % 256,
   n / 2 ^ 32 % 256, n / 2 ^ 40 % 256, n / 2 ^ 48 % 256, n / 2 ^ 56 % 256]

/-- Borsh encoding of a byte vector: `u32` length followed by the bytes. -/
def serBytes (b : Bytes) : Bytes := u32LE b.length ++ b

/-- Borsh encoding of a `ValueRef`: `u32` length followed by the 32-byte hash. -/
def ValueRef.serialize (r : ValueRef) : Bytes := u32LE r.length ++ r.hash

/-- The 16-bit presence bitmask of the branch children slots. -/
def childrenBitmask : List (Option Bytes) → Nat
  | [] => 0
  | none :: rest => 2 * childrenBitmask rest
  | some _ :: rest => 1 + 2 * childrenBitmask rest

/-- Borsh encoding of branch children: presence bitmask followed by the
hashes of the present children in ascending nibble order. -/
def serChildren (cs : List (Option Bytes)) : Bytes :=
  u16LE (childrenBitmask cs) ++ (cs.filterMap id).flatten

/-- Borsh encoding of a `RawTrieNode`: a tag byte followed by the fields.
Children are embedded by hash only. -/
def RawTrieNode.serialize : RawTrieNode → Bytes
  | .leaf ext value => 0 :: (serBytes ext ++ value.serialize)
  | .branchNoValue cs => 1 :: serChildren cs
  | .branchWithValue value cs => 2 :: (value.serialize ++ serChildren cs)
  | .extension ext childHash => 3 :: (serBytes ext ++ childHash)

/-- Borsh encoding of `RawTrieNodeWithSize`: the node followed by the
memory usage as a little-endian `u64`. -/
def RawTrieNodeWithSize.serialize (r : RawTrieNodeWithSize) : Bytes :=
  r.node.serialize ++ u64LE r.memory_usage

/-! ## The in-memory arena node model

Modelled from the spec (§3, §4.2, §4.3): nodes live in an arena and are
referenced by arena index; each node stores its immutable shape (children by
arena index) plus a hash field and a memory-usage field that transition from
unset to computed by `compute_hash_recursively`.  Reading the fields of a
non-leaf node before computation yields the default values (zero memory
usage, all-zero hash); leaf nodes compute hash and memory usage on demand
from their own content, which is why the reference leaf tests never call
`compute_hash_recursively`. -/

/-- An arena index referencing a trie node. -/
abbrev MemTrieNodeId := Nat

/-- `InputMemTrieNode`: the abstract per-variant description a node is built
from; children are already-allocated arena indices. -/
inductive InputMemTrieNode where
  | leaf (ext : Bytes) (value : FlatStateValue)
  | extension (ext : Bytes) (child : MemTrieNodeId)
  | branch (children : List (Option MemTrieNodeId))
  | branchWithValue (children : List (Option MemTrieNodeId)) (value : FlatStateValue)
deriving DecidableEq

/-- The arena indices of the children referenced by a shape, in ascending
nibble order for branches. -/
def InputMemTrieNode.childIds : InputMemTrieNode → List MemTrieNodeId
  | .leaf _ _ => []
  | .extension _ c => [c]
  | .branch cs => cs.filterMap id
  | .branchWithValue cs _ => cs.filterMap id

/-- Is the shape a leaf? -/
def InputMemTrieNode.isLeaf : InputMemTrieNode → Bool
  | .leaf _ _ => true
  | _ => false

/-- One stored in-arena node: immutable shape plus the two lazily computed
cached fields (`none` = still unset). -/
structure MemNode where
  shape : InputMemTrieNode
  hash : Option Bytes
  memoryUsage : Option Nat
deriving DecidableEq

/-- The arena: the sequence of nodes built so far, referenced by index. -/
structure Arena where
  nodes : List MemNode
deriving DecidableEq

/-- The node stored at an index, if the index was issued by this arena. -/
def Arena.node? (a : Arena) (i : Nat) : Option MemNode := a.nodes[i]?

/-- `MemTrieNodeId::new`: append a freshly built node (fields unset) to the
arena and return its arena index.  Children must already be in the arena,
so construction is strictly bottom-up. -/
def MemTrieNodeId.new (a : Arena) (input : InputMemTrieNode) : Arena × MemTrieNodeId :=
  (⟨a.nodes ++ [⟨input, none, none⟩]⟩, a.nodes.length)

/-- Protocol memory usage of a leaf: node cost 50, plus 2 per extension
byte, plus the value cost (value byte length plus a value-node cost of 50).
This is the durable-trie cost model the spec's §4.3 table and §9 point to;
it reproduces every fixture constant (100, 115, +60, +50, +103). -/
def leafMemoryUsage (ext : Bytes) (v : FlatStateValue) : Nat :=
  50 + 2 * ext.length + (v.value_len + 50)

/-- The canonical `RawTrieNodeWithSize` of a leaf (computable from the leaf
alone: a leaf has no children and its memory usage is a direct function of
its content). -/
def leafRaw (ext : Bytes) (v : FlatStateValue) : RawTrieNodeWithSize :=
  ⟨.leaf ext v.to_value_ref, leafMemoryUsage ext v⟩

/-- `memory_usage()` of the node view at an index: a leaf computes it on
demand, any other variant returns the cached field, `0` while unset. -/
def Arena.viewMemoryUsage (a : Arena) (i : Nat) : Option Nat :=
  (a.node? i).map fun n =>
    match n.shape with
    | .leaf ext v => leafMemoryUsage ext v
    | _ => n.memoryUsage.getD 0

/-- `node_hash()` of the node view at an index: a leaf computes it on
demand as the hash of its serialized canonical encoding, any other variant
returns the cached field, the all-zero hash while unset. -/
def Arena.viewNodeHash (a : Arena) (i : Nat) : Option Bytes :=
  (a.node? i).map fun n =>
    match n.shape with
    | .leaf ext v => hashBytes (leafRaw ext v).serialize
    | _ => n.hash.getD zeroHash

/-- The hashes of a branch children slot list, read through the views;
`none` overall if some child index is dangling. -/
def Arena.childHashes (a : Arena) : List (Option MemTrieNodeId) → Option (List (Option Bytes))
  | [] => some []
  | none :: rest => (a.childHashes rest).map (none :: ·)
  | some c :: rest => do
      let h ← a.viewNodeHash c
      let t ← a.childHashes rest
      pure (some h :: t)

/-- Sum of the memory usages of the present children of a slot list, read
through the views. -/
def Arena.sumChildMem (a : Arena) : List (Option MemTrieNodeId) → Option Nat
  | [] => some 0
  | none :: rest => a.sumChildMem rest
  | some c :: rest => do
      let m ← a.viewMemoryUsage c
      let s ← a.sumChildMem rest
      pure (m + s)

/-- Protocol memory usage of a shape, computed from the children's current
view values: fixed per-variant overhead plus variable parts plus children. -/
def Arena.computeMemoryUsage (a : Arena) : InputMemTrieNode → Option Nat
  | .leaf ext v => some (leafMemoryUsage ext v)
  | .extension ext c => (a.viewMemoryUsage c).map fun m => 50 + 2 * ext.length + m
  | .branch cs => (a.sumChildMem cs).map (· + 50)
  | .branchWithValue cs v => (a.sumChildMem cs).map fun s => s + (v.value_len + 50) + 50

/-- The canonical `RawTrieNode` of a shape: children are embedded by their
current view hashes. -/
def Arena.rawNodePart (a : Arena) : InputMemTrieNode → Option RawTrieNode
  | .leaf ext v => some (.leaf ext v.to_value_ref)
  | .extension ext c => (a.viewNodeHash c).map (.extension ext ·)
  | .branch cs => (a.childHashes cs).map .branchNoValue
  | .branchWithValue cs v => (a.childHashes cs).map (.branchWithValue v.to_value_ref)

/-- `to_raw_trie_node_with_size()` of the view at an index: the canonical
node (children by hash) paired with the view's memory usage. -/
def Arena.toRaw (a : Arena) (i : Nat) : Option RawTrieNodeWithSize := do
  let n ← a.node? i
  let m ← a.viewMemoryUsage i
  let part ← a.rawNodePart n.shape
  pure ⟨part, m⟩

/-- Overwrite the two cached fields of the node at an index. -/
def Arena.setNodeFields (a : Arena) (i : Nat) (h : Bytes) (m : Nat) : Arena :=
  match a.nodes[i]? with
  | none => a
  | some n => ⟨a.nodes.set i { n with hash := some h, memoryUsage := some m }⟩

/-- Populate the fields of the node at an index from its children's current
view values: memory usage by the cost formula, hash as the hash of the
serialized canonical encoding carrying that memory usage. -/
def Arena.computeHere (a : Arena) (i : Nat) : Arena :=
  match a.node? i with
  | none => a
  | some n =>
    match a.computeMemoryUsage n.shape, a.rawNodePart n.shape with
    | some m, some part =>
        a.setNodeFields i (hashBytes (RawTrieNodeWithSize.serialize ⟨part, m⟩)) m
    | _, _ => a

/-- The fuelled recursion of `compute_hash_recursively`: post-order over the
children, skipping nodes whose fields are already computed.  On a
bottom-up-built arena, fuel `i + 1` always suffices because children have
strictly smaller indices. -/
def computeRec : Nat → Arena → Nat → Arena
  | 0, a, _ => a
  | fuel + 1, a, i =>
    match a.node? i with
    | none => a
    | some n =>
      if n.hash.isSome then a
      else
        let a' := n.shape.childIds.foldl (fun acc c => computeRec fuel acc c) a
        a'.computeHere i

/-- `compute_hash_recursively`: populate hash and memory-usage fields of the
node at an index and, recursively, of any children still unset. -/
def Arena.computeHashRecursively (a : Arena) (i : Nat) : Arena :=
  computeRec (i + 1) a i

/-! ## Well-formedness and the computed-fields invariant -/

/-- Bottom-up well-formedness: every child index referenced by a node is
strictly smaller than the node's own index (children are constructed before
parents). -/
def Arena.wf (a : Arena) : Bool :=
  (List.range a.nodes.length).all fun i =>
    ((a.node? i).map fun n => n.shape.childIds.all fun c => decide (c < i)).getD true

/-- A node whose view values are final: a leaf (views computed on demand),
or a node with both cached fields populated. -/
def Arena.settled (a : Arena) (i : Nat) : Bool :=
  match a.node? i with
  | none => false
  | some n =>
    match n.shape with
    | .leaf _ _ => true
    | _ => n.hash.isSome && n.memoryUsage.isSome

/-- The computed-fields invariant at one index: if either cached field of
the node is populated then all its children are settled, its memory-usage
field agrees with the cost formula over the children's views, and its hash
field is the hash of the serialized canonical encoding carrying that memory
usage. -/
def Arena.invAt (a : Arena) (i : Nat) : Bool :=
  match a.node? i with
  | none => true
  | some n =>
    if n.hash.isSome || n.memoryUsage.isSome then
      n.shape.childIds.all (fun c => a.settled c) &&
      n.memoryUsage == a.computeMemoryUsage n.shape &&
      (match a.rawNodePart n.shape, n.memoryUsage with
       | some part, some m =>
           n.hash == some (hashBytes (RawTrieNodeWithSize.serialize ⟨part, m⟩))
       | _, _ => false)
    else true

/-- The computed-fields invariant over the whole arena.  It holds trivially
of any freshly built arena (all cached fields unset) and is preserved by
`compute_hash_recursively`. -/
def Arena.inv (a : Arena) : Bool :=
  (List.range a.nodes.length).all fun i => a.invAt i

/-! ## The branch children accessor -/

/-- The children accessor of a branch node view: the 16 nibble slots, each
holding the arena index of the child when present. -/
structure ChildrenView where
  slots : List (Option MemTrieNodeId)
deriving DecidableEq

/-- `Children::get(nibble)`: O(1) slot lookup. -/
def ChildrenView.get (c : ChildrenView) (k : Nat) : Option MemTrieNodeId :=
  c.slots.getD k none

/-- The iterator underlying `Children::iter()`: walk the slots from nibble 0
upward, emitting the child of every present slot. -/
def iterSlots : List (Option MemTrieNodeId) → List MemTrieNodeId
  | [] => []
  | none :: rest => iterSlots rest
  | some x :: rest => x :: iterSlots rest

/-- `Children::iter()`: a fresh iterator over the present slots in ascending
nibble order. -/
def ChildrenView.iter (c : ChildrenView) : List MemTrieNodeId := iterSlots c.slots

/-- The children accessor of the view at an index; `none` unless the node is
a branch variant. -/
def Arena.viewChildren (a : Arena) (i : Nat) : Option ChildrenView :=
  (a.node? i).bind fun n =>
    match n.shape with
    | .branch cs => some ⟨cs⟩
    | .branchWithValue cs _ => some ⟨cs⟩
    | _ => none

/-! ## Concrete arenas from the reference test fixtures -/

/-- The 16 branch slots with the given (nibble, child) pairs present. -/
def branchSlots (l : List (Nat × MemTrieNodeId)) : List (Option MemTrieNodeId) :=
  (List.range 16).map fun k => (l.find? fun p => p.1 == k).map Prod.snd

/-- Fixture of `test_basic_leaf_node_empty_extension_empty_value`. -/
def arenaLeafEmpty : Arena := ⟨[⟨.leaf [] (.inlined []), none, none⟩]⟩

/-- Fixture of `test_basic_leaf_node_inlined` and, at index 1, the leaf of
`test_basic_leaf_node_ref` over the same bytes. -/
def arenaLeafPair : Arena :=
  ⟨[⟨.leaf [0, 1, 2, 3, 4] (.inlined [5, 6, 7, 8, 9]), none, none⟩,
    ⟨.leaf [0, 1, 2, 3, 4] (.ref ⟨hashBytes [5, 6, 7, 8, 9], 5⟩), none, none⟩]⟩

/-- Fixture of `test_basic_extension_node`: a leaf at index 0 and the
extension node over it at index 1. -/
def arenaExt : Arena :=
  ⟨[⟨.leaf [0, 1, 2, 3, 4] (.inlined [5, 6, 7, 8, 9]), none, none⟩,
    ⟨.extension [5, 6, 7, 8, 9] 0, none, none⟩]⟩

/-- An extension node with an *empty* extension over an empty leaf. -/
def arenaExtEmpty : Arena :=
  ⟨[⟨.leaf [] (.inlined []), none, none⟩,
    ⟨.extension [] 0, none, none⟩]⟩

/-- Fixtures of `test_basic_branch_node` (index 2) and
`test_basic_branch_with_value_node` (index 3) over the two test leaves. -/
def arenaBranch : Arena :=
  ⟨[⟨.leaf [] (.inlined [1]), none, none⟩,
    ⟨.leaf [1] (.inlined [2]), none, none⟩,
    ⟨.branch (branchSlots [(3, 0), (5, 1)]), none, none⟩,
    ⟨.branchWithValue (branchSlots [(0, 0), (15, 1)]) (.inlined [3, 4, 5]), none, none⟩]⟩

/-! ## The state-snapshot collaborators (`state_snapshot.rs`)

The retry loops of `make_state_snapshot` are embedded as explicit iteration:
`outcome k` abstracts the success of the `k`-th attempt of the underlying
fallible operation, and the state after `n` executed loop iterations is the
pair (success flag, number of attempts performed so far).  Once the loop
guard is false the state no longer changes, so the limit describes the
loop's exit. -/

/-- The filesystem-deletion retry loop of `make_state_snapshot` (flag
`delete_state_snapshots_from_file_system`, counter
`file_system_delete_retries`, guard `!flag && retries < 3`): state after `n`
iterations, where `outcome k` is the result of the `k`-th call to
`delete_all_state_snapshots`. -/
def deleteSnapshotsFsLoop (outcome : Nat → Bool) : Nat → Bool × Nat
  | 0 => (false, 0)
  | n + 1 =>
    let s := deleteSnapshotsFsLoop outcome n
    if !s.1 && s.2 < 3 then (outcome s.2, s.2 + 1) else s

/-- The STATE_SNAPSHOT_KEY deletion retry loop of `make_state_snapshot`
(flag `delete_state_snapshot_from_db`, counter `db_delete_retries`, guard
`!flag && retries < 3`): state after `n` iterations, where `outcome k` is
the success of the `k`-th call to `set_state_snapshot_hash(None)`. -/
def deleteSnapshotKeyLoop (outcome : Nat → Bool) : Nat → Bool × Nat
  | 0 => (false, 0)
  | n + 1 =>
    let s := deleteSnapshotKeyLoop outcome n
    if !s.1 && s.2 < 3 then (outcome s.2, s.2 + 1) else s

/-- The STATE_SNAPSHOT_KEY write loop of `make_state_snapshot` (flag
`set_state_snapshot_in_db`, guard `!flag` — the source has **no** retry
counter on this loop): state after `n` iterations, where `outcome k` is the
success of the `k`-th call to `set_state_snapshot_hash(Some(hash))`. -/
def setSnapshotKeyLoop (outcome : Nat → Bool) : Nat → Bool × Nat
  | 0 => (false, 0)
  | n + 1 =>
    let s := setSnapshotKeyLoop outcome n
    if !s.1 then (outcome s.2, s.2 + 1) else s

/-- Result of `RwLock::try_read`: a guard, `WouldBlock`, or poisoning. -/
inductive TryLockResult (α : Type) where
  | ok (value : α)
  | wouldBlock
  | poisoned
deriving DecidableEq

/-- `StorageError` restricted to the variant used by `get_state_snapshot`. -/
inductive StorageError where
  | storageInconsistentState (msg : String)
deriving DecidableEq

/-- `StateSnapshot`: the snapshot handle guarded by the readers-writer lock
(store and flat-storage manager are opaque handles here). -/
structure StateSnapshot where
  prev_block_hash : Bytes
  store : Nat
  flat_storage_manager : Nat
deriving DecidableEq

/-- `ShardTries::get_state_snapshot`: dispatch on the result of
`try_read()` — never a blocking acquire — then on snapshot presence and on
the requested block hash. -/
def get_state_snapshot (lockResult : TryLockResult (Option StateSnapshot))
    (block_hash : Bytes) : Except StorageError (Nat × Nat) :=
  match lockResult with
  | .ok (some data) =>
      if data.prev_block_hash ≠ block_hash then
        .error (.storageInconsistentState "Wrong state snapshot: requested and available prev_block_hash differ")
      else
        .ok (data.store, data.flat_storage_manager)
  | .ok none => .error (.storageInconsistentState "No state snapshot available")
  | .wouldBlock =>
      .error (.storageInconsistentState "Accessing state snapshot would block. Retry in a few seconds.")
  | .poisoned =>
      .error (.storageInconsistentState "Cannot access state snapshot: lock poisoned")

/-! ## The `ApplyStatePartsRequest` handler (`sync_jobs_actor.rs`) -/

/-- `ApplyStatePartsResponse`: what the handler sends back to the client
actor; errors are modelled as opaque codes. -/
structure ApplyStatePartsResponse where
  apply_result : Except Nat Unit
  shard_id : Nat
  sync_hash : Nat

/-- `SyncJobsActor::apply_parts`: apply the state parts in order, stopping
at the first failing part (the `?` operator in the source loop); `partResults`
abstracts the outcome of fetching-and-applying each part. -/
def apply_parts (partResults : List (Except Nat Unit)) : Except Nat Unit :=
  match partResults with
  | [] => .ok ()
  | .ok () :: rest => apply_parts rest
  | .error e :: _ => .error e

/-- The `ApplyStatePartsRequest` handler: first `clear_flat_state`; on `Err`
send a response carrying the error and stop; on `Ok(false)` log and proceed;
on `Ok(true)` proceed.  Returns the responses sent (in order) and whether
`apply_parts` ran. -/
def handle_apply_state_parts (clearResult : Except Nat Bool)
    (partResults : List (Except Nat Unit)) (shard_id sync_hash : Nat) :
    List ApplyStatePartsResponse × Bool :=
  match clearResult with
  | .error e => ([⟨.error e, shard_id, sync_hash⟩], false)
  | .ok false => ([⟨apply_parts partResults, shard_id, sync_hash⟩], true)
  | .ok true => ([⟨apply_parts partResults, shard_id, sync_hash⟩], true)

/-! ## Verification relations -/

/-- Evolution relation of `compute_hash_recursively`: same node count, same
shapes, and nodes whose hash field is already populated are untouched. -/
def Preserves (a b : Arena) : Prop :=
  b.nodes.length = a.nodes.length ∧
  ∀ i n, a.node? i = some n →
    ∃ n', b.node? i = some n' ∧ n'.shape = n.shape ∧ (n.hash.isSome = true → n' = n)

/-! ## Theorems -/

theorem deleteSnapshotsFsLoop_le (o : Nat → Bool) : ∀ n, (deleteSnapshotsFsLoop o n).2 ≤ 3 := by
  intro n
  induction n with
  | zero => simp [deleteSnapshotsFsLoop]
  | succ n ih =>
    simp only [deleteSnapshotsFsLoop]
    split
    · next h =>
      have h2 : (deleteSnapshotsFsLoop o n).2 < 3 := by
        have := Bool.and_elim_right h
        exact of_decide_eq_true this
      simp
      omega
    · exact ih

theorem deleteSnapshotsFsLoop_count (o : Nat → Bool) :
    ∀ n, (deleteSnapshotsFsLoop o n).1 = false → (deleteSnapshotsFsLoop o n).2 = min n 3 := by
  intro n
  induction n with
  | zero => intro _; simp [deleteSnapshotsFsLoop]
  | succ n ih =>
    simp only [deleteSnapshotsFsLoop]
    split
    · next h =>
      intro _
      have h1 : (deleteSnapshotsFsLoop o n).1 = false := by
        have := Bool.and_elim_left h
        simpa using this
      have h2 : (deleteSnapshotsFsLoop o n).2 < 3 := of_decide_eq_true (Bool.and_elim_right h)
      have h3 := ih h1
      simp
      omega
    · next h =>
      intro hf
      have h3 := ih hf
      rw [Bool.and_eq_true, not_and] at h
      by_cases hb : (deleteSnapshotsFsLoop o n).1 = false
      · have h4 : ¬ (deleteSnapshotsFsLoop o n).2 < 3 := by
          intro hlt
          exact absurd (decide_eq_true hlt) (h (by simp [hb]))
        omega
      · exact absurd hf hb

theorem deleteSnapshotsFsLoop_stable (o : Nat → Bool) :
    ∀ n, 3 ≤ n → deleteSnapshotsFsLoop o n = deleteSnapshotsFsLoop o 3 := by
  intro n
  induction n with
  | zero => omega
  | succ n ih =>
    intro h
    rcases Nat.lt_or_ge 3 (n + 1) with h1 | h1
    · have hn : 3 ≤ n := by omega
      rw [show deleteSnapshotsFsLoop o (n+1) = deleteSnapshotsFsLoop o n from ?_]
      · exact ih hn
      · simp only [deleteSnapshotsFsLoop]
        split
        · next hg =>
          have h1' : (deleteSnapshotsFsLoop o n).1 = false := by
            simpa using Bool.and_elim_left hg
          have h2 := of_decide_eq_true (Bool.and_elim_right hg)
          have := deleteSnapshotsFsLoop_count o n h1'
          omega
        · rfl
    · have : n + 1 = 3 := by omega
      rw [this]

theorem setSnapshotKeyLoop_run_le (o : Nat → Bool) (k : Nat) (hfail : ∀ j, j < k → o j = false) :
    ∀ n, n ≤ k → setSnapshotKeyLoop o n = (false, n) := by
  intro n
  induction n with
  | zero => intro _; simp [setSnapshotKeyLoop]
  | succ n ih =>
    intro h
    have hs := ih (by omega)
    simp only [setSnapshotKeyLoop, hs]
    simp [hfail n (by omega)]

theorem setSnapshotKeyLoop_run (o : Nat → Bool) (k : Nat) (hfail : ∀ j, j < k → o j = false)
    (hsucc : o k = true) : ∀ n, k < n → setSnapshotKeyLoop o n = (true, k + 1) := by
  intro n
  induction n with
  | zero => omega
  | succ n ih =>
    intro h
    rcases Nat.lt_or_ge k n with h1 | h1
    · have hs := ih h1
      simp [setSnapshotKeyLoop, hs]
    · have hkn : k = n := by omega
      subst hkn
      have hs := setSnapshotKeyLoop_run_le o k hfail k (le_refl k)
      simp [setSnapshotKeyLoop, hs, hsucc]

/-- C2 counterexample: the claim that *every* retry loop of
`make_state_snapshot` performs at most 3 attempts and then terminates is
false — the loop writing the new STATE_SNAPSHOT_KEY has no retry bound: on
an always-failing outcome it is still running with 4 attempts performed
after 4 iterations. -/
theorem c2_counterexample :
    (setSnapshotKeyLoop (fun _ => false) 4).1 = false ∧
    (setSnapshotKeyLoop (fun _ => false) 4).2 = 4 ∧
    ¬ (setSnapshotKeyLoop (fun _ => false) 4).2 ≤ 3 := by decide

theorem deleteSnapshotKeyLoop_eq : deleteSnapshotKeyLoop = deleteSnapshotsFsLoop := by
  funext o n
  induction n with
  | zero => rfl
  | succ n ih => simp only [deleteSnapshotKeyLoop, deleteSnapshotsFsLoop, ih]

/-- C2 (amended): the two deletion retry loops of `make_state_snapshot`
(filesystem snapshot deletion and STATE_SNAPSHOT_KEY deletion) perform at
most 3 attempts and their state is final after 3 iterations; the loop
*writing* the new STATE_SNAPSHOT_KEY has no attempt bound: whenever the
first successful attempt is attempt `k` (for any `k`, even beyond 3), the
loop terminates after exactly `k + 1` attempts, and otherwise it loops
forever. -/
theorem c2_retry_loops :
    (∀ o n, (deleteSnapshotsFsLoop o n).2 ≤ 3) ∧
    (∀ o n, 3 ≤ n → deleteSnapshotsFsLoop o n = deleteSnapshotsFsLoop o 3) ∧
    (∀ o n, (deleteSnapshotKeyLoop o n).2 ≤ 3) ∧
    (∀ o n, 3 ≤ n → deleteSnapshotKeyLoop o n = deleteSnapshotKeyLoop o 3) ∧
    (∀ o k n, (∀ j, j < k → o j = false) → o k = true → k < n →
      setSnapshotKeyLoop o n = (true, k + 1)) := by
  refine ⟨deleteSnapshotsFsLoop_le, deleteSnapshotsFsLoop_stable, ?_, ?_, ?_⟩
  · rw [deleteSnapshotKeyLoop_eq]; exact deleteSnapshotsFsLoop_le
  · rw [deleteSnapshotKeyLoop_eq]; exact deleteSnapshotsFsLoop_stable
  · intro o k n hfail hsucc hkn
    exact setSnapshotKeyLoop_run o k hfail hsucc n hkn

theorem c2_retry_loops_witness :
    (deleteSnapshotsFsLoop (fun _ => false) 7).2 ≤ 3 ∧
    setSnapshotKeyLoop (fun j => decide (4 ≤ j)) 6 = (true, 5) := by
  constructor
  · exact c2_retry_loops.1 (fun _ => false) 7
  · exact c2_retry_loops.2.2.2.2 (fun j => decide (4 ≤ j)) 4 6 (by decide) (by decide)
      (by decide)

/-- C9: `ShardTries::get_state_snapshot` returns `Ok((store,
flat_storage_manager))` exactly when `try_read` acquires the lock without
blocking, a snapshot is present, and its `prev_block_hash` equals the
requested hash; in every other case (would-block, poisoned lock, no
snapshot, hash mismatch) it returns a typed `StorageInconsistentState`
error immediately. -/
theorem c9_get_state_snapshot (lr : TryLockResult (Option StateSnapshot)) (bh : Bytes) :
    ((∃ p, get_state_snapshot lr bh = .ok p) ↔
      ∃ data, lr = .ok (some data) ∧ data.prev_block_hash = bh) ∧
    (∀ data, lr = .ok (some data) → data.prev_block_hash = bh →
      get_state_snapshot lr bh = .ok (data.store, data.flat_storage_manager)) ∧
    ((¬ ∃ data, lr = .ok (some data) ∧ data.prev_block_hash = bh) →
      ∃ m, get_state_snapshot lr bh = .error (.storageInconsistentState m)) := by
  rcases lr with v | _ | _
  · rcases v with _ | data
    · simp [get_state_snapshot]
    · by_cases h : data.prev_block_hash = bh
      · simp [get_state_snapshot, h]
      · simp [get_state_snapshot, h]
  · simp [get_state_snapshot]
  · simp [get_state_snapshot]

theorem c9_witness :
    ((∃ p, get_state_snapshot (.ok (some ⟨[1, 2], 7, 8⟩)) [1, 2] = .ok p) ↔
      ∃ data, (TryLockResult.ok (some ⟨[1, 2], 7, 8⟩) :
          TryLockResult (Option StateSnapshot)) = .ok (some data) ∧
        data.prev_block_hash = [1, 2]) ∧
    (∀ data, (TryLockResult.ok (some ⟨[1, 2], 7, 8⟩) :
          TryLockResult (Option StateSnapshot)) = .ok (some data) →
      data.prev_block_hash = [1, 2] →
      get_state_snapshot (.ok (some ⟨[1, 2], 7, 8⟩)) [1, 2] = .ok (data.store, data.flat_storage_manager)) ∧
    ((¬ ∃ data, (TryLockResult.ok (some ⟨[1, 2], 7, 8⟩) :
          TryLockResult (Option StateSnapshot)) = .ok (some data) ∧
        data.prev_block_hash = [1, 2]) →
      ∃ m, get_state_snapshot (.ok (some ⟨[1, 2], 7, 8⟩)) [1, 2] =
        .error (.storageInconsistentState m)) :=
  c9_get_state_snapshot (.ok (some ⟨[1, 2], 7, 8⟩)) [1, 2]

/-- C10: the `ApplyStatePartsRequest` handler sends a response carrying the
error and applies no state parts when `clear_flat_state` returns `Err`; on
`Ok(false)` as on `Ok(true)` it proceeds to apply the state parts and sends
the resulting response — an unsuccessful flat-state deletion is fatal only
when it is an `Err`. -/
theorem c10_apply_state_parts (clearResult : Except Nat Bool)
    (partResults : List (Except Nat Unit)) (sid sh : Nat) :
    (∀ e, clearResult = .error e →
      handle_apply_state_parts clearResult partResults sid sh =
        ([⟨.error e, sid, sh⟩], false)) ∧
    (∀ b, clearResult = .ok b →
      handle_apply_state_parts clearResult partResults sid sh =
        ([⟨apply_parts partResults, sid, sh⟩], true)) := by
  rcases clearResult with e | b
  · simp [handle_apply_state_parts]
  · rcases b with _ | _ <;> simp [handle_apply_state_parts]

theorem c10_witness :
    handle_apply_state_parts (.error 3) [.ok ()] 1 2 = ([⟨.error 3, 1, 2⟩], false) ∧
    handle_apply_state_parts (.ok false) [.ok (), .error 5] 1 2 =
      ([⟨apply_parts [.ok (), .error 5], 1, 2⟩], true) :=
  ⟨(c10_apply_state_parts (.error 3) [.ok ()] 1 2).1 3 rfl,
   (c10_apply_state_parts (.ok false) [.ok (), .error 5] 1 2).2 false rfl⟩

/-- C3: every constructed Leaf node with empty extension and empty inlined
value has memory usage exactly 100 and canonical encoding
`Leaf([], value_ref_of_empty)`; every constructed Leaf node with a 5-byte
extension and a 5-byte inlined value has memory usage exactly 115. -/
theorem c3_leaf_fixtures (a : Arena) (i : Nat) (n : MemNode) :
    (a.node? i = some n → n.shape = .leaf [] (.inlined []) →
      a.viewMemoryUsage i = some 100 ∧
      a.toRaw i = some ⟨.leaf [] (FlatStateValue.inlined []).to_value_ref, 100⟩) ∧
    (∀ e v, a.node? i = some n → n.shape = .leaf e (.inlined v) →
      e.length = 5 → v.length = 5 → a.viewMemoryUsage i = some 115) := by
  constructor
  · intro h hs
    constructor
    · simp [Arena.viewMemoryUsage, h, hs, leafMemoryUsage, FlatStateValue.value_len]
    · simp [Arena.toRaw, Arena.viewMemoryUsage, Arena.rawNodePart, h, hs, leafMemoryUsage,
        FlatStateValue.value_len]
  · intro e v h hs he hv
    simp [Arena.viewMemoryUsage, h, hs, leafMemoryUsage, FlatStateValue.value_len, he, hv]

theorem c3_witness :
    (arenaLeafEmpty.viewMemoryUsage 0 = some 100 ∧
      arenaLeafEmpty.toRaw 0 = some ⟨.leaf [] (FlatStateValue.inlined []).to_value_ref, 100⟩) ∧
    arenaLeafPair.viewMemoryUsage 0 = some 115 :=
  ⟨(c3_leaf_fixtures arenaLeafEmpty 0 ⟨.leaf [] (.inlined []), none, none⟩).1 rfl rfl,
   (c3_leaf_fixtures arenaLeafPair 0 ⟨.leaf [0, 1, 2, 3, 4] (.inlined [5, 6, 7, 8, 9]), none, none⟩).2
     [0, 1, 2, 3, 4] [5, 6, 7, 8, 9] rfl rfl rfl rfl⟩

/-- C7: `FlatStateValue::Inlined(v)` converts to the `ValueRef` with hash
`hash(v)` and length `len(v)`, and a Leaf built with `Inlined(v)` and a
Leaf built with `Ref(ValueRef(hash(v), len(v)))` over the same extension
have identical canonical encodings, memory usage and node hash. -/
theorem c7_value_variant_agnostic (e v : Bytes) (a₁ a₂ : Arena) (i₁ i₂ : Nat)
    (n₁ n₂ : MemNode) :
    ((FlatStateValue.inlined v).to_value_ref = ⟨hashBytes v, v.length⟩) ∧
    (a₁.node? i₁ = some n₁ → n₁.shape = .leaf e (.inlined v) →
     a₂.node? i₂ = some n₂ → n₂.shape = .leaf e (.ref ⟨hashBytes v, v.length⟩) →
      a₁.toRaw i₁ = a₂.toRaw i₂ ∧
      a₁.viewMemoryUsage i₁ = a₂.viewMemoryUsage i₂ ∧
      a₁.viewNodeHash i₁ = a₂.viewNodeHash i₂) := by
  refine ⟨rfl, ?_⟩
  intro h₁ hs₁ h₂ hs₂
  refine ⟨?_, ?_, ?_⟩
  · simp [Arena.toRaw, Arena.viewMemoryUsage, Arena.rawNodePart, h₁, hs₁, h₂, hs₂,
      leafMemoryUsage, FlatStateValue.value_len, FlatStateValue.to_value_ref]
  · simp [Arena.viewMemoryUsage, h₁, hs₁, h₂, hs₂, leafMemoryUsage, FlatStateValue.value_len]
  · simp [Arena.viewNodeHash, h₁, hs₁, h₂, hs₂, leafRaw, leafMemoryUsage,
      FlatStateValue.value_len, FlatStateValue.to_value_ref]

theorem c7_witness :
    arenaLeafPair.toRaw 0 = arenaLeafPair.toRaw 1 ∧
    arenaLeafPair.viewMemoryUsage 0 = arenaLeafPair.viewMemoryUsage 1 ∧
    arenaLeafPair.viewNodeHash 0 = arenaLeafPair.viewNodeHash 1 :=
  (c7_value_variant_agnostic [0, 1, 2, 3, 4] [5, 6, 7, 8, 9] arenaLeafPair arenaLeafPair 0 1
    ⟨.leaf [0, 1, 2, 3, 4] (.inlined [5, 6, 7, 8, 9]), none, none⟩
    ⟨.leaf [0, 1, 2, 3, 4] (.ref ⟨hashBytes [5, 6, 7, 8, 9], 5⟩), none, none⟩).2
    rfl rfl rfl rfl

/-- C8 counterexample: reading `memory_usage()` / `node_hash()` of a
freshly constructed (never hashed) Extension node does not fail loudly: it
returns exactly the misleading defaults, memory usage `0` and the all-zero
hash. -/
theorem c8_counterexample :
    arenaExt.node? 1 =
      some ⟨.extension [5, 6, 7, 8, 9] 0, none, none⟩ ∧
    arenaExt.viewMemoryUsage 1 = some 0 ∧
    arenaExt.viewNodeHash 1 = some zeroHash := by decide

/-- C8 (amended): calling `memory_usage()` or `node_hash()` on a non-leaf
node before `compute_hash_recursively` has run on it returns the default
values — `0` and the all-zero hash — rather than failing loudly (leaf nodes
compute both on demand, so the question does not arise for them). -/
theorem c8_default_values (a : Arena) (i : Nat) (n : MemNode) (h : a.node? i = some n)
    (hleaf : n.shape.isLeaf = false) (hh : n.hash = none) (hm : n.memoryUsage = none) :
    a.viewMemoryUsage i = some 0 ∧ a.viewNodeHash i = some zeroHash := by
  rcases n with ⟨shape, hash, memoryUsage⟩
  cases hh
  cases hm
  rcases shape with _ | _ | _ | _
  · simp [InputMemTrieNode.isLeaf] at hleaf
  · simp [Arena.viewMemoryUsage, Arena.viewNodeHash, h]
  · simp [Arena.viewMemoryUsage, Arena.viewNodeHash, h]
  · simp [Arena.viewMemoryUsage, Arena.viewNodeHash, h]

theorem c8_default_values_witness :
    arenaExt.viewMemoryUsage 1 = some 0 ∧ arenaExt.viewNodeHash 1 = some zeroHash :=
  c8_default_values arenaExt 1 ⟨.extension [5, 6, 7, 8, 9] 0, none, none⟩
    (by decide) (by decide) rfl rfl

theorem iterSlots_eq_filterMap (l : List (Option MemTrieNodeId)) :
    iterSlots l = (List.range l.length).filterMap fun k => l.getD k none := by
  induction l with
  | nil => simp [iterSlots]
  | cons x rest ih =>
    rcases x with _ | c <;>
    · simp only [iterSlots, ih, List.length_cons, List.range_succ_eq_map, List.filterMap_map,
        List.filterMap_cons, List.getD_cons_zero, List.getD_cons_succ, Function.comp]
      rfl

/-- C6: for a branch node's children accessor, `iter()` yields exactly the
arena indices of the present slots, enumerated over nibbles 0..15 in
ascending order and nothing else (so membership in the iteration is
presence in some slot), and `get(k)` is slot lookup: `none` on an absent
slot, `some child` on a present one. -/
theorem c6_children_accessor (a : Arena) (i : Nat) (c : ChildrenView)
    (h : a.viewChildren i = some c) (hlen : c.slots.length = 16) :
    (c.iter = (List.range 16).filterMap fun k => c.get k) ∧
    (∀ x, x ∈ c.iter ↔ ∃ k, k < 16 ∧ c.get k = some x) ∧
    (∀ k, k < 16 → c.get k = c.slots.getD k none) := by
  have h1 : c.iter = (List.range 16).filterMap fun k => c.get k := by
    rw [ChildrenView.iter, iterSlots_eq_filterMap, hlen]
    rfl
  refine ⟨h1, ?_, fun k _ => rfl⟩
  intro x
  rw [h1]
  simp [List.mem_filterMap]

/-! ## machinery -/

theorem node?_setNodeFields (a : Arena) (i : Nat) (h : Bytes) (m : Nat) (j : Nat) :
    (a.setNodeFields i h m).node? j =
      if j = i then
        (a.node? i).map fun n => { n with hash := some h, memoryUsage := some m }
      else a.node? j := by
  rcases hn : a.nodes[i]? with _ | n
  · simp only [Arena.setNodeFields, hn]
    split
    · next he => subst he; simp [Arena.node?, hn]
    · rfl
  · simp only [Arena.setNodeFields, hn, Arena.node?]
    have hi : i < a.nodes.length := by
      by_contra hlt
      rw [List.getElem?_eq_none (by omega)] at hn
      exact absurd hn (by simp)
    split
    · next he => subst he; simp [List.getElem?_set_self, hi, hn]
    · next he => simp [List.getElem?_set_ne (fun heq => he heq.symm)]

theorem length_setNodeFields (a : Arena) (i : Nat) (h : Bytes) (m : Nat) :
    (a.setNodeFields i h m).nodes.length = a.nodes.length := by
  rcases hn : a.nodes[i]? with _ | n <;> simp [Arena.setNodeFields, hn]


theorem Preserves.rfl (a : Arena) : Preserves a a :=
  ⟨Eq.refl _, fun _ n h => ⟨n, h, Eq.refl _, fun _ => Eq.refl _⟩⟩

theorem Preserves.trans {a b c : Arena} (h1 : Preserves a b) (h2 : Preserves b c) :
    Preserves a c := by
  refine ⟨h2.1.trans h1.1, fun i n hn => ?_⟩
  obtain ⟨n', hn', hs', hh'⟩ := h1.2 i n hn
  obtain ⟨n'', hn'', hs'', hh''⟩ := h2.2 i n' hn'
  refine ⟨n'', hn'', hs''.trans hs', fun hh => ?_⟩
  have e1 := hh' hh
  subst e1
  exact hh'' hh

theorem settled_mono {a b : Arena} (hp : Preserves a b) {c : Nat}
    (hs : a.settled c = true) : b.settled c = true := by
  unfold Arena.settled at hs ⊢
  rcases hn : a.node? c with _ | n
  · simp [hn] at hs
  · simp only [hn] at hs
    obtain ⟨n', hn', hsh, hh⟩ := hp.2 c n hn
    simp only [hn']
    cases hshape : n.shape with
    | leaf e v => simp [hsh, hshape]
    | extension e ch =>
      simp only [hshape] at hs
      rw [hh (Bool.and_elim_left hs)]
      simp only [hshape]
      exact hs
    | branch cs =>
      simp only [hshape] at hs
      rw [hh (Bool.and_elim_left hs)]
      simp only [hshape]
      exact hs
    | branchWithValue cs v =>
      simp only [hshape] at hs
      rw [hh (Bool.and_elim_left hs)]
      simp only [hshape]
      exact hs

theorem settled_node {a : Arena} {c : Nat} (hs : a.settled c = true) :
    ∃ n, a.node? c = some n ∧
      (n.shape.isLeaf = true ∨ (n.hash.isSome = true ∧ n.memoryUsage.isSome = true)) := by
  unfold Arena.settled at hs
  rcases hn : a.node? c with _ | n
  · simp [hn] at hs
  · simp only [hn] at hs
    refine ⟨n, Eq.refl _, ?_⟩
    cases hshape : n.shape with
    | leaf e v => exact Or.inl (by simp [InputMemTrieNode.isLeaf, hshape])
    | extension e ch =>
      simp only [hshape] at hs
      exact Or.inr (by simpa using hs)
    | branch cs =>
      simp only [hshape] at hs
      exact Or.inr (by simpa using hs)
    | branchWithValue cs v =>
      simp only [hshape] at hs
      exact Or.inr (by simpa using hs)

theorem viewMemoryUsage_stable {a b : Arena} (hp : Preserves a b) {c : Nat}
    (hs : a.settled c = true) : b.viewMemoryUsage c = a.viewMemoryUsage c := by
  obtain ⟨n, hn, hcase⟩ := settled_node hs
  obtain ⟨n', hn', hsh, hh⟩ := hp.2 c n hn
  rcases hcase with hleaf | ⟨hhash, _⟩
  · cases hshape : n.shape with
    | leaf e v =>
      simp only [Arena.viewMemoryUsage, hn, hn', Option.map_some']
      rw [hsh]
      simp [hshape]
    | extension e ch => rw [hshape] at hleaf; simp [InputMemTrieNode.isLeaf] at hleaf
    | branch cs => rw [hshape] at hleaf; simp [InputMemTrieNode.isLeaf] at hleaf
    | branchWithValue cs v => rw [hshape] at hleaf; simp [InputMemTrieNode.isLeaf] at hleaf
  · rw [hh hhash] at hn'
    simp only [Arena.viewMemoryUsage, hn, hn']

theorem viewNodeHash_stable {a b : Arena} (hp : Preserves a b) {c : Nat}
    (hs : a.settled c = true) : b.viewNodeHash c = a.viewNodeHash c := by
  obtain ⟨n, hn, hcase⟩ := settled_node hs
  obtain ⟨n', hn', hsh, hh⟩ := hp.2 c n hn
  rcases hcase with hleaf | ⟨hhash, _⟩
  · cases hshape : n.shape with
    | leaf e v =>
      simp only [Arena.viewNodeHash, hn, hn', Option.map_some']
      rw [hsh]
      simp [hshape]
    | extension e ch => rw [hshape] at hleaf; simp [InputMemTrieNode.isLeaf] at hleaf
    | branch cs => rw [hshape] at hleaf; simp [InputMemTrieNode.isLeaf] at hleaf
    | branchWithValue cs v => rw [hshape] at hleaf; simp [InputMemTrieNode.isLeaf] at hleaf
  · rw [hh hhash] at hn'
    simp only [Arena.viewNodeHash, hn, hn']

theorem sumChildMem_stable {a b : Arena} (hp : Preserves a b) :
    ∀ cs : List (Option MemTrieNodeId), (∀ c ∈ cs.filterMap id, a.settled c = true) →
      b.sumChildMem cs = a.sumChildMem cs := by
  intro cs
  induction cs with
  | nil => intro _; rfl
  | cons x rest ih =>
    intro hset
    rcases x with _ | c
    · simp only [Arena.sumChildMem]
      exact ih (by simpa using hset)
    · have hc : a.settled c = true := hset c (by simp)
      simp only [Arena.sumChildMem]
      rw [viewMemoryUsage_stable hp hc, ih (fun c' hc' => hset c' (by simp [hc']))]

theorem childHashes_stable {a b : Arena} (hp : Preserves a b) :
    ∀ cs : List (Option MemTrieNodeId), (∀ c ∈ cs.filterMap id, a.settled c = true) →
      b.childHashes cs = a.childHashes cs := by
  intro cs
  induction cs with
  | nil => intro _; rfl
  | cons x rest ih =>
    intro hset
    rcases x with _ | c
    · simp only [Arena.childHashes]
      rw [ih (by simpa using hset)]
    · have hc : a.settled c = true := hset c (by simp)
      simp only [Arena.childHashes]
      rw [viewNodeHash_stable hp hc, ih (fun c' hc' => hset c' (by simp [hc']))]

theorem computeMemoryUsage_stable {a b : Arena} (hp : Preserves a b)
    (shape : InputMemTrieNode) (hset : ∀ c ∈ shape.childIds, a.settled c = true) :
    b.computeMemoryUsage shape = a.computeMemoryUsage shape := by
  cases shape with
  | leaf e v => rfl
  | extension e ch =>
    have hc : a.settled ch = true := hset ch (by simp [InputMemTrieNode.childIds])
    simp only [Arena.computeMemoryUsage]
    rw [viewMemoryUsage_stable hp hc]
  | branch cs =>
    simp only [Arena.computeMemoryUsage]
    rw [sumChildMem_stable hp cs (by simpa [InputMemTrieNode.childIds] using hset)]
  | branchWithValue cs v =>
    simp only [Arena.computeMemoryUsage]
    rw [sumChildMem_stable hp cs (by simpa [InputMemTrieNode.childIds] using hset)]

theorem rawNodePart_stable {a b : Arena} (hp : Preserves a b)
    (shape : InputMemTrieNode) (hset : ∀ c ∈ shape.childIds, a.settled c = true) :
    b.rawNodePart shape = a.rawNodePart shape := by
  cases shape with
  | leaf e v => rfl
  | extension e ch =>
    have hc : a.settled ch = true := hset ch (by simp [InputMemTrieNode.childIds])
    simp only [Arena.rawNodePart]
    rw [viewNodeHash_stable hp hc]
  | branch cs =>
    simp only [Arena.rawNodePart]
    rw [childHashes_stable hp cs (by simpa [InputMemTrieNode.childIds] using hset)]
  | branchWithValue cs v =>
    simp only [Arena.rawNodePart]
    rw [childHashes_stable hp cs (by simpa [InputMemTrieNode.childIds] using hset)]

theorem node?_isSome {a : Arena} {i : Nat} : (a.node? i).isSome = true ↔ i < a.nodes.length := by
  rw [Arena.node?, Option.isSome_iff_exists]
  constructor
  · rintro ⟨x, hx⟩
    exact (List.getElem?_eq_some_iff.mp hx).choose
  · intro h
    exact ⟨a.nodes[i], List.getElem?_eq_some_iff.mpr ⟨h, Eq.refl _⟩⟩

theorem node?_lt_length {a : Arena} {i : Nat} {n : MemNode} (hn : a.node? i = some n) :
    i < a.nodes.length :=
  node?_isSome.mp (by simp [hn])

theorem wf_spec {a : Arena} (hwf : a.wf = true) {i : Nat} {n : MemNode}
    (hn : a.node? i = some n) : ∀ c ∈ n.shape.childIds, c < i := by
  intro c hc
  have hi : i < a.nodes.length := node?_lt_length hn
  have := (List.all_eq_true.mp hwf) i (by simpa using hi)
  rw [hn] at this
  simp only [Option.map_some', Option.getD_some] at this
  exact of_decide_eq_true ((List.all_eq_true.mp this) c hc)

theorem wf_of {a : Arena} (h : ∀ i n, a.node? i = some n → ∀ c ∈ n.shape.childIds, c < i) :
    a.wf = true := by
  rw [Arena.wf, List.all_eq_true]
  intro i _
  rcases hn : a.node? i with _ | n
  · simp
  · simp only [Option.map_some', Option.getD_some, List.all_eq_true]
    intro c hc
    exact decide_eq_true (h i n hn c hc)

theorem inv_spec {a : Arena} (hinv : a.inv = true) (i : Nat) : a.invAt i = true := by
  rcases Nat.lt_or_ge i a.nodes.length with hi | hi
  · exact (List.all_eq_true.mp hinv) i (by simpa using hi)
  · have hn : a.node? i = none := by
      rw [Arena.node?]
      exact List.getElem?_eq_none_iff.mpr (by omega)
    simp [Arena.invAt, hn]

theorem inv_of {a : Arena} (h : ∀ i, a.invAt i = true) : a.inv = true := by
  rw [Arena.inv, List.all_eq_true]
  exact fun i _ => h i

theorem wf_preserves {a b : Arena} (hp : Preserves a b) (hwf : a.wf = true) : b.wf = true := by
  apply wf_of
  intro i n' hn'
  have hi : i < a.nodes.length := hp.1 ▸ node?_lt_length hn'
  rcases hn : a.node? i with _ | n
  · rw [Arena.node?, List.getElem?_eq_none_iff] at hn; omega
  · obtain ⟨n'', hn'', hsh, _⟩ := hp.2 i n hn
    rw [hn'] at hn''
    cases hn''
    rw [hsh]
    exact wf_spec hwf hn

theorem invAt_spec {a : Arena} {i : Nat} {n : MemNode} (hn : a.node? i = some n)
    (hinv : a.invAt i = true)
    (hset : n.hash.isSome = true ∨ n.memoryUsage.isSome = true) :
    (∀ c ∈ n.shape.childIds, a.settled c = true) ∧
    n.memoryUsage = a.computeMemoryUsage n.shape ∧
    (∃ part m, a.rawNodePart n.shape = some part ∧ n.memoryUsage = some m ∧
      n.hash = some (hashBytes (RawTrieNodeWithSize.serialize ⟨part, m⟩))) := by
  unfold Arena.invAt at hinv
  simp only [hn] at hinv
  have hcond : (n.hash.isSome || n.memoryUsage.isSome) = true := by
    rcases hset with h | h <;> simp [h]
  rw [if_pos hcond] at hinv
  have h1 := Bool.and_elim_left (Bool.and_elim_left hinv)
  have h2 := Bool.and_elim_right (Bool.and_elim_left hinv)
  have h3 := Bool.and_elim_right hinv
  refine ⟨?_, ?_, ?_⟩
  · intro c hc
    exact (List.all_eq_true.mp h1) c hc
  · exact eq_of_beq h2
  · rcases hpart : a.rawNodePart n.shape with _ | part
    · rw [hpart] at h3; exact absurd h3 (by simp)
    · rcases hm : n.memoryUsage with _ | m
      · rw [hpart, hm] at h3; exact absurd h3 (by simp)
      · rw [hpart, hm] at h3
        simp only at h3
        exact ⟨part, m, Eq.refl _, Eq.refl _, eq_of_beq h3⟩

theorem invAt_of_fields {a : Arena} {i : Nat} {n : MemNode} (hn : a.node? i = some n)
    (hch : ∀ c ∈ n.shape.childIds, a.settled c = true)
    (hmem : n.memoryUsage = a.computeMemoryUsage n.shape)
    (hhash : ∃ part m, a.rawNodePart n.shape = some part ∧ n.memoryUsage = some m ∧
      n.hash = some (hashBytes (RawTrieNodeWithSize.serialize ⟨part, m⟩))) :
    a.invAt i = true := by
  obtain ⟨part, m, hpart, hm, hh⟩ := hhash
  unfold Arena.invAt
  simp only [hn]
  rw [if_pos (by simp [hh])]
  rw [Bool.and_eq_true, Bool.and_eq_true]
  refine ⟨⟨?_, ?_⟩, ?_⟩
  · exact List.all_eq_true.mpr fun c hc => hch c hc
  · exact beq_iff_eq.mpr hmem
  · rw [hpart, hm]
    simp only
    exact beq_iff_eq.mpr hh

theorem invAt_unset {a : Arena} {i : Nat} {n : MemNode} (hn : a.node? i = some n)
    (hh : n.hash = none) (hm : n.memoryUsage = none) : a.invAt i = true := by
  unfold Arena.invAt
  simp [hn, hh, hm]

theorem settled_viewMemoryUsage_some {a : Arena} {c : Nat} (hs : a.settled c = true) :
    ∃ m, a.viewMemoryUsage c = some m := by
  obtain ⟨n, hn, -⟩ := settled_node hs
  rw [Arena.viewMemoryUsage, hn, Option.map_some']
  exact ⟨_, Eq.refl _⟩

theorem settled_viewNodeHash_some {a : Arena} {c : Nat} (hs : a.settled c = true) :
    ∃ h, a.viewNodeHash c = some h := by
  obtain ⟨n, hn, -⟩ := settled_node hs
  rw [Arena.viewNodeHash, hn, Option.map_some']
  exact ⟨_, Eq.refl _⟩

theorem sumChildMem_isSome {a : Arena} :
    ∀ cs : List (Option MemTrieNodeId), (∀ c ∈ cs.filterMap id, a.settled c = true) →
      ∃ s, a.sumChildMem cs = some s := by
  intro cs
  induction cs with
  | nil => exact fun _ => ⟨0, Eq.refl _⟩
  | cons x rest ih =>
    intro hset
    rcases x with _ | c
    · obtain ⟨s, hs⟩ := ih (by simpa using hset)
      exact ⟨s, by simpa [Arena.sumChildMem] using hs⟩
    · obtain ⟨m, hm⟩ := settled_viewMemoryUsage_some (hset c (by simp))
      obtain ⟨s, hs⟩ := ih (fun c' hc' => hset c' (by simp [hc']))
      exact ⟨m + s, by simp [Arena.sumChildMem, hm, hs]⟩

theorem childHashes_isSome {a : Arena} :
    ∀ cs : List (Option MemTrieNodeId), (∀ c ∈ cs.filterMap id, a.settled c = true) →
      ∃ hs, a.childHashes cs = some hs := by
  intro cs
  induction cs with
  | nil => exact fun _ => ⟨[], Eq.refl _⟩
  | cons x rest ih =>
    intro hset
    rcases x with _ | c
    · obtain ⟨t, ht⟩ := ih (by simpa using hset)
      exact ⟨none :: t, by simp [Arena.childHashes, ht]⟩
    · obtain ⟨h, hh⟩ := settled_viewNodeHash_some (hset c (by simp))
      obtain ⟨t, ht⟩ := ih (fun c' hc' => hset c' (by simp [hc']))
      exact ⟨some h :: t, by simp [Arena.childHashes, hh, ht]⟩

theorem computeMemoryUsage_isSome {a : Arena} (shape : InputMemTrieNode)
    (hset : ∀ c ∈ shape.childIds, a.settled c = true) :
    ∃ m, a.computeMemoryUsage shape = some m := by
  cases shape with
  | leaf e v => exact ⟨_, Eq.refl _⟩
  | extension e ch =>
    obtain ⟨m, hm⟩ := settled_viewMemoryUsage_some (hset ch (by simp [InputMemTrieNode.childIds]))
    exact ⟨50 + 2 * e.length + m, by simp [Arena.computeMemoryUsage, hm]⟩
  | branch cs =>
    obtain ⟨s, hs⟩ := sumChildMem_isSome cs (by simpa [InputMemTrieNode.childIds] using hset)
    exact ⟨s + 50, by simp [Arena.computeMemoryUsage, hs]⟩
  | branchWithValue cs v =>
    obtain ⟨s, hs⟩ := sumChildMem_isSome cs (by simpa [InputMemTrieNode.childIds] using hset)
    exact ⟨s + (v.value_len + 50) + 50, by simp [Arena.computeMemoryUsage, hs]⟩

theorem rawNodePart_isSome {a : Arena} (shape : InputMemTrieNode)
    (hset : ∀ c ∈ shape.childIds, a.settled c = true) :
    ∃ part, a.rawNodePart shape = some part := by
  cases shape with
  | leaf e v => exact ⟨_, Eq.refl _⟩
  | extension e ch =>
    obtain ⟨h, hh⟩ := settled_viewNodeHash_some (hset ch (by simp [InputMemTrieNode.childIds]))
    exact ⟨.extension e h, by simp [Arena.rawNodePart, hh]⟩
  | branch cs =>
    obtain ⟨hs, hhs⟩ := childHashes_isSome cs (by simpa [InputMemTrieNode.childIds] using hset)
    exact ⟨.branchNoValue hs, by simp [Arena.rawNodePart, hhs]⟩
  | branchWithValue cs v =>
    obtain ⟨hs, hhs⟩ := childHashes_isSome cs (by simpa [InputMemTrieNode.childIds] using hset)
    exact ⟨.branchWithValue v.to_value_ref hs, by simp [Arena.rawNodePart, hhs]⟩

theorem settled_of_fields {b : Arena} {i : Nat} {n : MemNode} (hn : b.node? i = some n)
    (h1 : n.hash.isSome = true) (h2 : n.memoryUsage.isSome = true) :
    b.settled i = true := by
  unfold Arena.settled
  simp only [hn]
  cases hshape : n.shape with
  | leaf e v => rfl
  | extension e ch => simp [hshape, h1, h2]
  | branch cs => simp [hshape, h1, h2]
  | branchWithValue cs v => simp [hshape, h1, h2]

theorem computeHere_good {a : Arena} {i : Nat} {n : MemNode}
    (hwf : a.wf = true) (hinv : a.inv = true)
    (hn : a.node? i = some n) (hh : n.hash = none)
    (hch : ∀ c ∈ n.shape.childIds, a.settled c = true) :
    Preserves a (a.computeHere i) ∧
    (∀ j, j ≠ i → (a.computeHere i).node? j = a.node? j) ∧
    (a.computeHere i).wf = true ∧
    (a.computeHere i).inv = true ∧
    (a.computeHere i).settled i = true := by
  obtain ⟨m, hm⟩ := computeMemoryUsage_isSome n.shape hch
  obtain ⟨part, hpart⟩ := rawNodePart_isSome n.shape hch
  have hb : a.computeHere i =
      a.setNodeFields i (hashBytes (RawTrieNodeWithSize.serialize ⟨part, m⟩)) m := by
    unfold Arena.computeHere
    simp [hn, hm, hpart]
  have hnodei : (a.computeHere i).node? i =
      some ⟨n.shape, some (hashBytes (RawTrieNodeWithSize.serialize ⟨part, m⟩)), some m⟩ := by
    rw [hb, node?_setNodeFields, if_pos (Eq.refl i), hn, Option.map_some']
  have hnodej : ∀ j, j ≠ i → (a.computeHere i).node? j = a.node? j := by
    intro j hj
    rw [hb, node?_setNodeFields, if_neg hj]
  have hp : Preserves a (a.computeHere i) := by
    constructor
    · rw [hb]; exact length_setNodeFields a i _ m
    · intro j nj hnj
      by_cases hji : j = i
      · subst hji
        rw [hn] at hnj
        cases hnj
        refine ⟨_, hnodei, Eq.refl _, fun hsome => ?_⟩
        rw [hh] at hsome
        exact absurd hsome (by simp)
      · exact ⟨nj, by rw [hnodej j hji]; exact hnj, Eq.refl _, fun _ => Eq.refl _⟩
  refine ⟨hp, hnodej, wf_preserves hp hwf, ?_, ?_⟩
  · apply inv_of
    intro j
    by_cases hji : j = i
    · subst hji
      apply invAt_of_fields hnodei
      · intro c hc
        exact settled_mono hp (hch c hc)
      · show some m = _
        rw [computeMemoryUsage_stable hp n.shape hch, hm]
      · refine ⟨part, m, ?_, Eq.refl _, Eq.refl _⟩
        rw [rawNodePart_stable hp n.shape hch]
        exact hpart
    · rcases hnj : a.node? j with _ | nj
      · unfold Arena.invAt
        rw [hnodej j hji, hnj]
      · by_cases hcase : nj.hash.isSome = true ∨ nj.memoryUsage.isSome = true
        · obtain ⟨hchj, hmemj, partj, mj, hpartj, hmj, hhashj⟩ :=
            invAt_spec hnj (inv_spec hinv j) hcase
        -- rebuild at b
          apply invAt_of_fields (by rw [hnodej j hji]; exact hnj)
          · intro c hc
            exact settled_mono hp (hchj c hc)
          · rw [computeMemoryUsage_stable hp nj.shape hchj]
            exact hmemj
          · refine ⟨partj, mj, ?_, hmj, hhashj⟩
            rw [rawNodePart_stable hp nj.shape hchj]
            exact hpartj
        · push_neg at hcase
          obtain ⟨h1, h2⟩ := hcase
          exact invAt_unset (by rw [hnodej j hji]; exact hnj)
            (Option.not_isSome_iff_eq_none.mp (by simpa using h1))
            (Option.not_isSome_iff_eq_none.mp (by simpa using h2))
  · exact settled_of_fields hnodei (by simp) (by simp)

theorem computeList_good (fuel : Nat)
    (IH : ∀ (a : Arena) (c : Nat), c < fuel → a.wf = true → a.inv = true →
      Preserves a (computeRec fuel a c) ∧
      (∀ j, c < j → (computeRec fuel a c).node? j = a.node? j) ∧
      (computeRec fuel a c).wf = true ∧
      (computeRec fuel a c).inv = true ∧
      (c < a.nodes.length → (computeRec fuel a c).settled c = true)) :
    ∀ (l : List Nat) (a : Arena) (i : Nat), a.wf = true → a.inv = true →
      (∀ c ∈ l, c < i) → (∀ c ∈ l, c < fuel) → (∀ c ∈ l, c < a.nodes.length) →
      Preserves a (l.foldl (fun acc c => computeRec fuel acc c) a) ∧
      (∀ j, i ≤ j → (l.foldl (fun acc c => computeRec fuel acc c) a).node? j = a.node? j) ∧
      (l.foldl (fun acc c => computeRec fuel acc c) a).wf = true ∧
      (l.foldl (fun acc c => computeRec fuel acc c) a).inv = true ∧
      (∀ c ∈ l, (l.foldl (fun acc c => computeRec fuel acc c) a).settled c = true) := by
  intro l
  induction l with
  | nil =>
    intro a i hwf hinv _ _ _
    exact ⟨Preserves.rfl a, fun _ _ => Eq.refl _, hwf, hinv, fun c hc => absurd hc (by simp)⟩
  | cons c rest ih =>
    intro a i hwf hinv hlt hfuel hlen
    rw [List.foldl_cons]
    obtain ⟨hp1, hunch1, hwf1, hinv1, hset1⟩ :=
      IH a c (hfuel c (by simp)) hwf hinv
    have hsc : (computeRec fuel a c).settled c = true := hset1 (hlen c (by simp))
    obtain ⟨hp2, hunch2, hwf2, hinv2, hsetrest⟩ :=
      ih (computeRec fuel a c) i hwf1 hinv1
        (fun c' hc' => hlt c' (by simp [hc']))
        (fun c' hc' => hfuel c' (by simp [hc']))
        (fun c' hc' => by rw [hp1.1]; exact hlen c' (by simp [hc']))
    refine ⟨hp1.trans hp2, ?_, hwf2, hinv2, ?_⟩
    · intro j hij
      rw [hunch2 j hij, hunch1 j (by have := hlt c (by simp); omega)]
    · intro c' hc'
      rcases List.mem_cons.mp hc' with he | hr
      · subst he
        exact settled_mono hp2 hsc
      · exact hsetrest c' hr

theorem computeRec_good : ∀ (fuel : Nat) (a : Arena) (i : Nat), i < fuel →
    a.wf = true → a.inv = true →
    Preserves a (computeRec fuel a i) ∧
    (∀ j, i < j → (computeRec fuel a i).node? j = a.node? j) ∧
    (computeRec fuel a i).wf = true ∧
    (computeRec fuel a i).inv = true ∧
    (i < a.nodes.length → (computeRec fuel a i).settled i = true) := by
  intro fuel
  induction fuel with
  | zero => intro a i h; omega
  | succ fuel ih =>
    intro a i hif hwf hinv
    rcases hn : a.node? i with _ | n
    · rw [show computeRec (fuel + 1) a i = a from by simp [computeRec, hn]]
      refine ⟨Preserves.rfl a, fun _ _ => Eq.refl _, hwf, hinv, ?_⟩
      intro hi
      have hs := node?_isSome.mpr hi
      rw [hn] at hs
      exact absurd hs (by simp)
    · by_cases hhs : n.hash.isSome = true
      · rw [show computeRec (fuel + 1) a i = a from by simp [computeRec, hn, hhs]]
        refine ⟨Preserves.rfl a, fun _ _ => Eq.refl _, hwf, hinv, ?_⟩
        intro _
        obtain ⟨-, -, part, m, -, hm, -⟩ := invAt_spec hn (inv_spec hinv i) (Or.inl hhs)
        exact settled_of_fields hn hhs (by simp [hm])
      · have hh : n.hash = none := Option.not_isSome_iff_eq_none.mp (by simpa using hhs)
        have hstep : computeRec (fuel + 1) a i =
            (n.shape.childIds.foldl (fun acc c => computeRec fuel acc c) a).computeHere i := by
          simp [computeRec, hn, hhs]
        have hchlt : ∀ c ∈ n.shape.childIds, c < i := wf_spec hwf hn
        have hilen : i < a.nodes.length := node?_lt_length hn
        have hfuel' : ∀ c ∈ n.shape.childIds, c < fuel :=
          fun c hc => Nat.lt_of_lt_of_le (hchlt c hc) (Nat.lt_succ_iff.mp hif)
        have hlen' : ∀ c ∈ n.shape.childIds, c < a.nodes.length :=
          fun c hc => Nat.lt_trans (hchlt c hc) hilen
        obtain ⟨hp1, hunch1, hwf1, hinv1, hsetl⟩ :=
          computeList_good fuel ih n.shape.childIds a i hwf hinv hchlt hfuel' hlen' 
        set a1 := n.shape.childIds.foldl (fun acc c => computeRec fuel acc c) a with ha1
        have hn1 : a1.node? i = some n := by rw [hunch1 i (le_refl i)]; exact hn
        obtain ⟨hp2, hunch2, hwf2, hinv2, hset2⟩ :=
          computeHere_good hwf1 hinv1 hn1 hh (fun c hc => hsetl c hc)
        rw [hstep]
        refine ⟨hp1.trans hp2, ?_, hwf2, hinv2, fun _ => hset2⟩
        intro j hij
        rw [hunch2 j (by omega), hunch1 j (by omega)]

theorem viewMemoryUsage_of_computed {a : Arena} {i : Nat} {n : MemNode} {m : Nat}
    (hn : a.node? i = some n) (hnl : n.shape.isLeaf = false) (hm : n.memoryUsage = some m) :
    a.viewMemoryUsage i = some m := by
  cases hshape : n.shape with
  | leaf e v => rw [hshape] at hnl; simp [InputMemTrieNode.isLeaf] at hnl
  | extension e ch => simp [Arena.viewMemoryUsage, hn, hshape, hm]
  | branch cs => simp [Arena.viewMemoryUsage, hn, hshape, hm]
  | branchWithValue cs v => simp [Arena.viewMemoryUsage, hn, hshape, hm]

theorem viewNodeHash_of_computed {a : Arena} {i : Nat} {n : MemNode} {h : Bytes}
    (hn : a.node? i = some n) (hnl : n.shape.isLeaf = false) (hh : n.hash = some h) :
    a.viewNodeHash i = some h := by
  cases hshape : n.shape with
  | leaf e v => rw [hshape] at hnl; simp [InputMemTrieNode.isLeaf] at hnl
  | extension e ch => simp [Arena.viewNodeHash, hn, hshape, hh]
  | branch cs => simp [Arena.viewNodeHash, hn, hshape, hh]
  | branchWithValue cs v => simp [Arena.viewNodeHash, hn, hshape, hh]

theorem settled_invAt_node_hash {a : Arena} {i : Nat} (hs : a.settled i = true)
    (hinv : a.invAt i = true) :
    ∃ raw, a.toRaw i = some raw ∧ a.viewNodeHash i = some (hashBytes raw.serialize) := by
  obtain ⟨n, hn, hcase⟩ := settled_node hs
  cases hshape : n.shape with
  | leaf e v =>
    refine ⟨leafRaw e v, ?_, ?_⟩
    · simp [Arena.toRaw, Arena.viewMemoryUsage, Arena.rawNodePart, hn, hshape, leafRaw]
    · simp [Arena.viewNodeHash, hn, hshape]
  | extension e ch =>
    have hnl : n.shape.isLeaf = false := by simp [InputMemTrieNode.isLeaf, hshape]
    rcases hcase with hleaf | ⟨hhash, hmem⟩
    · rw [hshape] at hleaf; simp [InputMemTrieNode.isLeaf] at hleaf
    · obtain ⟨-, -, part, m, hpart, hm, hh⟩ := invAt_spec hn hinv (Or.inl hhash)
      refine ⟨⟨part, m⟩, ?_, ?_⟩
      · simp [Arena.toRaw, hn, viewMemoryUsage_of_computed hn hnl hm, hpart]
      · exact viewNodeHash_of_computed hn hnl hh
  | branch cs =>
    have hnl : n.shape.isLeaf = false := by simp [InputMemTrieNode.isLeaf, hshape]
    rcases hcase with hleaf | ⟨hhash, hmem⟩
    · rw [hshape] at hleaf; simp [InputMemTrieNode.isLeaf] at hleaf
    · obtain ⟨-, -, part, m, hpart, hm, hh⟩ := invAt_spec hn hinv (Or.inl hhash)
      refine ⟨⟨part, m⟩, ?_, ?_⟩
      · simp [Arena.toRaw, hn, viewMemoryUsage_of_computed hn hnl hm, hpart]
      · exact viewNodeHash_of_computed hn hnl hh
  | branchWithValue cs v =>
    have hnl : n.shape.isLeaf = false := by simp [InputMemTrieNode.isLeaf, hshape]
    rcases hcase with hleaf | ⟨hhash, hmem⟩
    · rw [hshape] at hleaf; simp [InputMemTrieNode.isLeaf] at hleaf
    · obtain ⟨-, -, part, m, hpart, hm, hh⟩ := invAt_spec hn hinv (Or.inl hhash)
      refine ⟨⟨part, m⟩, ?_, ?_⟩
      · simp [Arena.toRaw, hn, viewMemoryUsage_of_computed hn hnl hm, hpart]
      · exact viewNodeHash_of_computed hn hnl hh

theorem computeHashRecursively_eq (a : Arena) (i : Nat) :
    a.computeHashRecursively i = computeRec (i + 1) a i := Eq.refl _

/-- C1: for every node of every variant in a bottom-up-built arena, after
`compute_hash_recursively` has populated its hash field, `node_hash()`
equals the hash of the borsh byte serialization of
`to_raw_trie_node_with_size()` — whose encoding embeds the children's
*hashes* (see `Arena.rawNodePart` and `serChildren`), not their raw
bytes. -/
theorem c1_node_hash (a : Arena) (i : Nat) (hwf : a.wf = true) (hinv : a.inv = true)
    (hi : i < a.nodes.length) :
    ∃ raw, (a.computeHashRecursively i).toRaw i = some raw ∧
      (a.computeHashRecursively i).viewNodeHash i = some (hashBytes raw.serialize) := by
  obtain ⟨-, -, -, hinv', hset⟩ :=
    computeRec_good (i + 1) a i (Nat.lt_succ_self i) hwf hinv
  rw [computeHashRecursively_eq]
  exact settled_invAt_node_hash (hset hi) (inv_spec hinv' i)

theorem c1_witness :
    ∃ raw, (arenaExt.computeHashRecursively 1).toRaw 1 = some raw ∧
      (arenaExt.computeHashRecursively 1).viewNodeHash 1 = some (hashBytes raw.serialize) :=
  c1_node_hash arenaExt 1 (by decide) (by decide) (by decide)

set_option maxRecDepth 10000 in
/-- C4 (amended): for every Extension node over any child, after
`compute_hash_recursively` the node's memory usage equals the child's
memory usage plus `50 + 2 * extension_length` — which is plus 60 exactly
when the extension is 5 bytes long; in particular the reference fixture
(extension `[5,6,7,8,9]` over the leaf `[0,1,2,3,4] / Inlined [5,6,7,8,9]`)
has memory usage 175 and node hash equal to the hash of the serialized
`Extension([5,6,7,8,9], leaf_hash)` with size 175. -/
theorem c4_extension_memory (a : Arena) (i : Nat) (n : MemNode) (e : Bytes) (c : Nat)
    (hwf : a.wf = true) (hinv : a.inv = true) (hn : a.node? i = some n)
    (hshape : n.shape = .extension e c) :
    (∃ m, (a.computeHashRecursively i).viewMemoryUsage c = some m ∧
      (a.computeHashRecursively i).viewMemoryUsage i = some (50 + 2 * e.length + m) ∧
      (e.length = 5 → (a.computeHashRecursively i).viewMemoryUsage i = some (m + 60))) ∧
    ((arenaExt.computeHashRecursively 1).viewMemoryUsage 1 = some 175 ∧
      (arenaExt.computeHashRecursively 1).viewNodeHash 1 =
        some (hashBytes (RawTrieNodeWithSize.serialize ⟨.extension [5, 6, 7, 8, 9]
          (hashBytes (leafRaw [0, 1, 2, 3, 4] (.inlined [5, 6, 7, 8, 9])).serialize), 175⟩))) := by
  refine ⟨?_, by decide⟩
  obtain ⟨hp, -, -, hinv', hset⟩ :=
    computeRec_good (i + 1) a i (Nat.lt_succ_self i) hwf hinv
  rw [computeHashRecursively_eq]
  set b := computeRec (i + 1) a i with hb
  have hsettled : b.settled i = true := hset (node?_lt_length hn)
  obtain ⟨n', hn', hsh', -⟩ := hp.2 i n hn
  have hshape' : n'.shape = .extension e c := hsh'.trans hshape
  have hnl : n'.shape.isLeaf = false := by simp [InputMemTrieNode.isLeaf, hshape']
  obtain ⟨n'', hn'', hcase⟩ := settled_node hsettled
  rw [hn'] at hn''
  cases hn''
  rcases hcase with hleaf | ⟨hhash, hmem⟩
  · rw [hnl] at hleaf; exact absurd hleaf (by simp)
  · obtain ⟨-, hmemEq, -⟩ := invAt_spec hn' (inv_spec hinv' i) (Or.inl hhash)
    rw [hshape'] at hmemEq
    simp only [Arena.computeMemoryUsage] at hmemEq
    rcases hvc : b.viewMemoryUsage c with _ | m
    · rw [hvc] at hmemEq
      simp only [Option.map_none'] at hmemEq
      rw [hmemEq] at hmem
      exact absurd hmem (by simp)
    · rw [hvc] at hmemEq
      simp only [Option.map_some'] at hmemEq
      refine ⟨m, Eq.refl _, ?_, ?_⟩
      · exact viewMemoryUsage_of_computed hn' hnl hmemEq
      · intro he
        have h5 : 50 + 2 * e.length + m = m + 60 := by rw [he]; omega
        rw [← h5]
        exact viewMemoryUsage_of_computed hn' hnl hmemEq

/-- C5: after `compute_hash_recursively`, every Branch node without a value
has memory usage equal to the sum of the present children's memory usages
plus 50, and every BranchWithValue node with a 3-byte inlined value has
memory usage equal to that sum plus 103. -/
theorem c5_branch_memory (a : Arena) (i : Nat) (n : MemNode) (hwf : a.wf = true)
    (hinv : a.inv = true) (hn : a.node? i = some n) :
    (∀ cs, n.shape = .branch cs →
      ∃ s, (a.computeHashRecursively i).sumChildMem cs = some s ∧
        (a.computeHashRecursively i).viewMemoryUsage i = some (s + 50)) ∧
    (∀ cs v, n.shape = .branchWithValue cs (.inlined v) → v.length = 3 →
      ∃ s, (a.computeHashRecursively i).sumChildMem cs = some s ∧
        (a.computeHashRecursively i).viewMemoryUsage i = some (s + 103)) := by
  obtain ⟨hp, -, -, hinv', hset⟩ :=
    computeRec_good (i + 1) a i (Nat.lt_succ_self i) hwf hinv
  rw [computeHashRecursively_eq]
  set b := computeRec (i + 1) a i with hb
  have hsettled : b.settled i = true := hset (node?_lt_length hn)
  obtain ⟨n', hn', hsh', -⟩ := hp.2 i n hn
  obtain ⟨n'', hn'', hcase⟩ := settled_node hsettled
  rw [hn'] at hn''
  cases hn''
  constructor
  · intro cs hshape
    have hshape' : n'.shape = .branch cs := hsh'.trans hshape
    have hnl : n'.shape.isLeaf = false := by simp [InputMemTrieNode.isLeaf, hshape']
    rcases hcase with hleaf | ⟨hhash, hmem⟩
    · rw [hnl] at hleaf; exact absurd hleaf (by simp)
    · obtain ⟨-, hmemEq, -⟩ := invAt_spec hn' (inv_spec hinv' i) (Or.inl hhash)
      rw [hshape'] at hmemEq
      simp only [Arena.computeMemoryUsage] at hmemEq
      rcases hvc : b.sumChildMem cs with _ | s
      · rw [hvc] at hmemEq
        simp only [Option.map_none'] at hmemEq
        rw [hmemEq] at hmem
        exact absurd hmem (by simp)
      · rw [hvc] at hmemEq
        simp only [Option.map_some'] at hmemEq
        exact ⟨s, Eq.refl _, viewMemoryUsage_of_computed hn' hnl hmemEq⟩
  · intro cs v hshape hv
    have hshape' : n'.shape = .branchWithValue cs (.inlined v) := hsh'.trans hshape
    have hnl : n'.shape.isLeaf = false := by simp [InputMemTrieNode.isLeaf, hshape']
    rcases hcase with hleaf | ⟨hhash, hmem⟩
    · rw [hnl] at hleaf; exact absurd hleaf (by simp)
    · obtain ⟨-, hmemEq, -⟩ := invAt_spec hn' (inv_spec hinv' i) (Or.inl hhash)
      rw [hshape'] at hmemEq
      simp only [Arena.computeMemoryUsage] at hmemEq
      rcases hvc : b.sumChildMem cs with _ | s
      · rw [hvc] at hmemEq
        simp only [Option.map_none'] at hmemEq
        rw [hmemEq] at hmem
        exact absurd hmem (by simp)
      · rw [hvc] at hmemEq
        simp only [Option.map_some', FlatStateValue.value_len] at hmemEq
        have h3 : s + (v.length + 50) + 50 = s + 103 := by rw [hv]
        rw [h3] at hmemEq
        exact ⟨s, Eq.refl _, viewMemoryUsage_of_computed hn' hnl hmemEq⟩

set_option maxRecDepth 10000 in
/-- C4 counterexample: an Extension node with an *empty* extension over an
empty leaf (memory usage 100) gets memory usage 150 = child + 50, not
child + 60 — the "+60" of the claim is specific to 5-byte extensions. -/
theorem c4_counterexample :
    (arenaExtEmpty.computeHashRecursively 1).viewMemoryUsage 0 = some 100 ∧
    (arenaExtEmpty.computeHashRecursively 1).viewMemoryUsage 1 = some 150 ∧
    (150 : Nat) ≠ 100 + 60 := by decide

theorem c4_witness :
    (∃ m, (arenaExt.computeHashRecursively 1).viewMemoryUsage 0 = some m ∧
      (arenaExt.computeHashRecursively 1).viewMemoryUsage 1 =
        some (50 + 2 * [5, 6, 7, 8, 9].length + m) ∧
      ([5, 6, 7, 8, 9].length = 5 →
        (arenaExt.computeHashRecursively 1).viewMemoryUsage 1 = some (m + 60))) ∧
    ((arenaExt.computeHashRecursively 1).viewMemoryUsage 1 = some 175 ∧
      (arenaExt.computeHashRecursively 1).viewNodeHash 1 =
        some (hashBytes (RawTrieNodeWithSize.serialize ⟨.extension [5, 6, 7, 8, 9]
          (hashBytes (leafRaw [0, 1, 2, 3, 4] (.inlined [5, 6, 7, 8, 9])).serialize), 175⟩))) :=
  c4_extension_memory arenaExt 1 ⟨.extension [5, 6, 7, 8, 9] 0, none, none⟩ [5, 6, 7, 8, 9] 0
    (by decide) (by decide) (by decide) (by decide)

theorem c5_witness :
    (∃ s, (arenaBranch.computeHashRecursively 2).sumChildMem (branchSlots [(3, 0), (5, 1)]) =
        some s ∧
      (arenaBranch.computeHashRecursively 2).viewMemoryUsage 2 = some (s + 50)) ∧
    (∃ s, (arenaBranch.computeHashRecursively 3).sumChildMem (branchSlots [(0, 0), (15, 1)]) =
        some s ∧
      (arenaBranch.computeHashRecursively 3).viewMemoryUsage 3 = some (s + 103)) :=
  ⟨(c5_branch_memory arenaBranch 2 ⟨.branch (branchSlots [(3, 0), (5, 1)]), none, none⟩
      (by decide) (by decide) (by decide)).1 (branchSlots [(3, 0), (5, 1)]) (by decide),
   (c5_branch_memory arenaBranch 3
      ⟨.branchWithValue (branchSlots [(0, 0), (15, 1)]) (.inlined [3, 4, 5]), none, none⟩
      (by decide) (by decide) (by decide)).2 (branchSlots [(0, 0), (15, 1)]) [3, 4, 5]
      (by decide) (by decide)⟩

theorem c6_witness :
    ((⟨branchSlots [(3, 0), (5, 1)]⟩ : ChildrenView).iter =
      (List.range 16).filterMap fun k => (⟨branchSlots [(3, 0), (5, 1)]⟩ : ChildrenView).get k) ∧
    (∀ x, x ∈ (⟨branchSlots [(3, 0), (5, 1)]⟩ : ChildrenView).iter ↔
      ∃ k, k < 16 ∧ (⟨branchSlots [(3, 0), (5, 1)]⟩ : ChildrenView).get k = some x) ∧
    (∀ k, k < 16 → (⟨branchSlots [(3, 0), (5, 1)]⟩ : ChildrenView).get k =
      (⟨branchSlots [(3, 0), (5, 1)]⟩ : ChildrenView).slots.getD k none) :=
  c6_children_accessor arenaBranch 2 ⟨branchSlots [(3, 0), (5, 1)]⟩ (by decide) (by decide)
